import Mathlib

/-!
Verification of the `viewlogs` tool (src/main.rs) against its specification.

The Rust program is shallowly embedded: the filesystem is an explicit tree
value (`FSNode`), paths are lists of components, and every fallible
filesystem operation of the program becomes a total Lean function over that
tree.  Rust panics (`unwrap` on `Err`/missing-key indexing) are modelled as
explicit error constructors (`SearchPanic`, `ViewPanic`), distinct from the
program's own `ProgramError` values.  External collaborators (the `regex`
crate, the `squeue` subprocess) enter as parameters: a compiled regex is an
abstract line matcher, and the subprocess result is an (exit-success,
stdout) pair.
-/

namespace Viewlogs

/-- A filesystem path, as the list of its components from the root of the
embedded filesystem tree (the process working directory). -/
abbrev FsPath := List String

/-- A node of the embedded filesystem.  A `file` carries `some content`
when it can be opened and read as UTF-8 text and `none` otherwise
(`File::open`/`read_to_string` failure).  A `dir` carries `some listing`
when `fs::read_dir` succeeds on it and `none` when the directory exists
but cannot be listed. -/
inductive FSNode where
  | file (content : Option String)
  | dir (listing : Option (List (String × FSNode)))

/-- `DirEntry::file_type().is_dir()` for an entry's node. -/
def FSNode.isDir : FSNode → Bool
  | .dir _ => true
  | .file _ => false

/-- `DirEntry::file_type().is_file()` for an entry's node. -/
def FSNode.isFile : FSNode → Bool
  | .file _ => true
  | .dir _ => false

/-- Look up a named child inside a node (only listable directories have
resolvable children in this model). -/
def FSNode.lookupChild : FSNode → String → Option FSNode
  | .file _, _ => none
  | .dir none, _ => none
  | .dir (some l), name => (l.find? (fun e => e.1 == name)).map (fun e => e.2)

/-- Resolve a path against the filesystem tree. -/
def resolve : FSNode → FsPath → Option FSNode
  | fs, [] => some fs
  | fs, c :: rest =>
    match fs.lookupChild c with
    | none => none
    | some child => resolve child rest

/-- `fs::read_dir`: the listing of the directory at `p`, or `none` when the
path is missing, is a file, or is an unlistable directory. -/
def readDirRaw (fs : FSNode) (p : FsPath) : Option (List (String × FSNode)) :=
  match resolve fs p with
  | some (.dir (some l)) => some l
  | _ => none

/-- `enum ProgramError` from src/main.rs (the `io::Error` source of
`FileNotFound` carries no information used by the program's display). -/
inductive ProgramError where
  | FileNotFound (path : FsPath)
  | LogNotFound (dir : FsPath) (ending : String)
deriving DecidableEq

/-- `Path::display`, with `/` as the component separator. -/
def FsPath.display (p : FsPath) : String := String.intercalate "/" p

/-- The `snafu(display(...))` message of each error, i.e. `to_string()`. -/
def ProgramError.message : ProgramError → String
  | .FileNotFound path => "Could not find file " ++ FsPath.display path ++ "."
  | .LogNotFound dir ending =>
      "Could not find log in " ++ FsPath.display dir ++ " with ending " ++ ending ++ "."

/-- `type PResult<T> = Result<T, ProgramError>`. -/
abbrev PResult (α : Type) := Except ProgramError α

/-- `get_subdirectories` (src/main.rs:71-83): list `start`, keep the
entries whose file type is a directory, and return their full paths.
A `read_dir` failure becomes `FileNotFound start`. -/
def get_subdirectories (fs : FSNode) (start : FsPath) : PResult (List FsPath) :=
  match readDirRaw fs start with
  | none => .error (.FileNotFound start)
  | some entries =>
      .ok ((entries.filter (fun e => e.2.isDir)).map (fun e => start ++ [e.1]))

/-- The job map: job identifier to job directory path.  `HashMap` is
modelled as an association list with unique keys; iteration order is
irrelevant to the program because `search` sorts the entries. -/
abbrev JobMap := List (String × FsPath)

/-- `HashMap::insert`: overwrite any entry with the same key. -/
def JobMap.insertKV (m : JobMap) (k : String) (v : FsPath) : JobMap :=
  m.filter (fun e => !(e.1 == k)) ++ [(k, v)]

/-- `HashMap` key lookup (`job_map[&target]` probes this before panicking). -/
def JobMap.lookupKey (m : JobMap) (k : String) : Option FsPath :=
  (m.find? (fun e => e.1 == k)).map (fun e => e.2)

/-- Inner loop of `build_job_map`: insert every job directory under a
`.submitit` directory, keyed by its basename (`file_name`). -/
def insertJobs (m : JobMap) (jobs : List FsPath) : JobMap :=
  jobs.foldl
    (fun acc job =>
      match job.getLast? with
      | some name => acc.insertKV name job
      | none => acc)
    m

/-- Middle loop of `build_job_map` over the time-level directories `hms`:
skip silently when `hms/.submitit` does not exist, otherwise list it
(propagating a listing failure) and insert its job directories. -/
def processHms (fs : FSNode) (m : JobMap) : List FsPath → PResult JobMap
  | [] => .ok m
  | hms :: rest =>
    let submitit_dir := hms ++ [".submitit"]
    if (resolve fs submitit_dir).isSome then
      match get_subdirectories fs submitit_dir with
      | .error e => .error e
      | .ok jobs => processHms fs (insertJobs m jobs) rest
    else
      processHms fs m rest

/-- Outer loop of `build_job_map` over the date-level directories `ymd`:
list each one (propagating a listing failure) and process its time-level
subdirectories. -/
def processYmd (fs : FSNode) (m : JobMap) : List FsPath → PResult JobMap
  | [] => .ok m
  | ymd :: rest =>
    match get_subdirectories fs ymd with
    | .error e => .error e
    | .ok hmss =>
      match processHms fs m hmss with
      | .error e => .error e
      | .ok m2 => processYmd fs m2 rest

/-- `build_job_map` (src/main.rs:91-109): walk
`start/<date>/<time>/.submitit/<job-id>` and map each job-id basename to
its directory path. -/
def build_job_map (fs : FSNode) (start : FsPath) : PResult JobMap :=
  match get_subdirectories fs start with
  | .error e => .error e
  | .ok ymds => processYmd fs [] ymds

/-- Split a character list on a separator character (the empty input
yields one empty piece, as `str::split` and `String::splitOn` do). -/
def splitOnChar (sep : Char) : List Char → List (List Char)
  | [] => [[]]
  | c :: rest =>
    if c = sep then [] :: splitOnChar sep rest
    else
      match splitOnChar sep rest with
      | [] => [[c]]
      | l :: ls => (c :: l) :: ls

/-- `Path::extension` of a file name: the portion after the final `.`,
or `none` when the name has no `.` or consists of a single leading `.`
piece (e.g. `.submitit`).  Names are valid UTF-8 in this model, and the
special components `.` and `..` never appear in `read_dir` output. -/
def extension (name : String) : Option String :=
  match splitOnChar '.' name.data with
  | [] => none
  | [_] => none
  | first :: rest =>
    if first.isEmpty && rest.length == 1 then none
    else some (String.mk ((rest.getLast?).getD []))

/-- Loop body of `get_log_pathbuf`: the first entry that is a regular file
with exactly the requested extension, else `LogNotFound`. -/
def findLog (dir : FsPath) (ending : String) : List (String × FSNode) → PResult FsPath
  | [] => .error (.LogNotFound dir ending)
  | (name, node) :: rest =>
    if node.isFile && (extension name == some ending) then .ok (dir ++ [name])
    else findLog dir ending rest

/-- `get_log_pathbuf` (src/main.rs:127-146): scan the immediate entries of
`dir` for the first regular file whose extension equals `ending`.
A `read_dir` failure on `dir` becomes `FileNotFound dir` (the `context`
call), not `LogNotFound`. -/
def get_log_pathbuf (fs : FSNode) (dir : FsPath) (ending : String) : PResult FsPath :=
  match readDirRaw fs dir with
  | none => .error (.FileNotFound dir)
  | some entries => findLog dir ending entries

/-- `get_log_content` (src/main.rs:120-125): the file content as text, or
`none` when the path cannot be opened or read as UTF-8 text. -/
def get_log_content (fs : FSNode) (filepath : FsPath) : Option String :=
  match resolve fs filepath with
  | some (.file content) => content
  | _ => none

/-- `get_log_content_or_error_msg` (src/main.rs:111-118): the log content,
the path-resolution error's display message, or the fixed fallback. -/
def get_log_content_or_error_msg (fs : FSNode) (dir : FsPath) (ending : String) : String :=
  match get_log_pathbuf fs dir ending with
  | .error e => e.message
  | .ok fp => (get_log_content fs fp).getD "Could not read log."

/-- `str::lines` strips one trailing `\r` from each line. -/
def stripCr (l : List Char) : List Char :=
  if l.getLast? = some '\r' then l.dropLast else l

/-- `str::lines`: split on `\n` (a final line ending is not followed by an
empty line), stripping a trailing `\r` from each line. -/
def rustLines (s : String) : List (List Char) :=
  let parts := splitOnChar '\n' s.data
  (if parts.getLast? = some [] then parts.dropLast else parts).map stripCr

/-- `str::trim` restricted to ASCII whitespace (sufficient for `squeue`
output, which is ASCII). -/
def rustTrim (l : List Char) : List Char :=
  ((l.dropWhile Char.isWhitespace).reverse.dropWhile Char.isWhitespace).reverse

/-- `get_active_slurm_jobs` (src/main.rs:21-42), with the subprocess
modelled by its exit status and captured stdout: a non-success exit yields
the empty list, otherwise the trimmed non-empty stdout lines. -/
def get_active_slurm_jobs (success : Bool) (stdout : String) : List String :=
  if !success then []
  else (((rustLines stdout).map rustTrim).filter (fun l => !l.isEmpty)).map String.mk

/-- A compiled regex, abstracted to what `search` uses: a per-line match
test (`Regex::is_match`) and a per-line replacement of every match span
(`Regex::replace_all` with the highlighting closure). -/
structure Matcher where
  isMatch : List Char → Bool
  replaceAll : List Char → List Char

/-- `colored`'s `.red()`: wrap a span in the ANSI red marker. -/
def highlight (s : List Char) : List Char := "\x1b[31m".data ++ s ++ "\x1b[0m".data

/-- Substring occurrence test: the semantics of `Regex::is_match` for a
pattern without metacharacters. -/
def containsLit (pat : List Char) : List Char → Bool
  | [] => pat.isPrefixOf []
  | c :: rest => pat.isPrefixOf (c :: rest) || containsLit pat rest

/-- Leftmost, non-overlapping replace-all of a non-empty literal pattern,
with fuel for structural recursion (fuel = input length always suffices
because every step consumes at least one character). -/
def replaceAllAux (pat rep : List Char) : Nat → List Char → List Char
  | 0, s => s
  | _ + 1, [] => []
  | fuel + 1, c :: rest =>
    if !pat.isEmpty && pat.isPrefixOf (c :: rest) then
      rep ++ replaceAllAux pat rep fuel ((c :: rest).drop pat.length)
    else
      c :: replaceAllAux pat rep fuel rest

/-- The compiled regex for a metacharacter-free, non-empty pattern:
`is_match` is substring occurrence and `replace_all` wraps each leftmost
non-overlapping occurrence in the red highlight marker. -/
def literalMatcher (pat : String) : Matcher where
  isMatch s := containsLit pat.data s
  replaceAll s := replaceAllAux pat.data (highlight pat.data) s.length s

/-- `b.0.cmp(a.0) != Greater` for the descending sort in `search`:
byte-lexicographic (equivalently code-point-lexicographic, UTF-8 being
order-preserving) comparison of the keys, reversed. -/
def strLe : List Char → List Char → Bool
  | [], _ => true
  | _ :: _, [] => false
  | c :: cs, d :: ds => if c = d then strLe cs ds else decide (c < d)

/-- The comparator passed to `entries.sort_by(|a, b| b.0.cmp(a.0))`. -/
def cmpGeKey (a b : String × FsPath) : Bool := strLe b.1.data a.1.data

/-- `entries.sort_by(|a, b| b.0.cmp(a.0))`: a stable sort into descending
lexicographic key order (`Vec::sort_by` and `mergeSort` are both stable,
and the keys of a `JobMap` are unique). -/
def sortEntriesDesc (m : JobMap) : JobMap := m.mergeSort cmpGeKey

/-- Main loop of `search` (src/main.rs:183-210) over the sorted entries:
apply the `--active` filter, resolve the `.out` log (skipping the job on
failure), read its content (an unreadable content degrades to `""`), keep
the highlighted matching lines, and emit the job when at least one line
matched. -/
def processEntries (fs : FSNode) (re : Matcher) (activeFlag : Bool)
    (activeJobs : List String) :
    List (String × FsPath) → List (String × FsPath × List String)
  | [] => []
  | (id, dir) :: rest =>
    if activeFlag && !activeJobs.contains id then
      processEntries fs re activeFlag activeJobs rest
    else
      match get_log_pathbuf fs dir "out" with
      | .error _ => processEntries fs re activeFlag activeJobs rest
      | .ok fp =>
        let content := (get_log_content fs fp).getD ""
        let matching := (rustLines content).filterMap
          (fun line =>
            if re.isMatch line then some (String.mk (re.replaceAll line)) else none)
        if matching.isEmpty then processEntries fs re activeFlag activeJobs rest
        else (id, dir, matching) :: processEntries fs re activeFlag activeJobs rest

/-- What `search` prints per emitted job: just the identifier under
`--ids`, otherwise the directory header followed by the matching lines. -/
inductive SearchOutput where
  | idOnly (id : String)
  | jobBlock (dir : FsPath) (lines : List String)
deriving DecidableEq

/-- The panics of `search`: `Regex::new(..).unwrap()` on an invalid
pattern (the regex parse error message names the pattern), and
`build_job_map(..).unwrap()` on an index-build failure. -/
inductive SearchPanic where
  | badRegex (msg : String)
  | buildFailed (e : ProgramError)
deriving DecidableEq

/-- `search` (src/main.rs:164-211).  The compiled pattern is a parameter
(`Regex::new` is external): `.error msg` stands for a failed compilation
with message `msg`.  The subprocess behind `get_active_slurm_jobs` is the
(`squeueSuccess`, `squeueStdout`) pair. -/
def searchCmd (compiled : Except String Matcher) (fs : FSNode)
    (s_ids s_active : Bool) (squeueSuccess : Bool) (squeueStdout : String) :
    Except SearchPanic (List SearchOutput) :=
  match compiled with
  | .error msg => .error (.badRegex msg)
  | .ok re =>
    match build_job_map fs ["multirun"] with
    | .error e => .error (.buildFailed e)
    | .ok m =>
      let entries := sortEntriesDesc m
      let active_jobs :=
        if s_active then get_active_slurm_jobs squeueSuccess squeueStdout else []
      let results := processEntries fs re s_active active_jobs entries
      .ok (results.map (fun r =>
        if s_ids then .idOnly r.1 else .jobBlock r.2.1 r.2.2))

/-- The panics of `view`: `build_job_map(..).unwrap()` on a build failure,
and `job_map[&target]` indexing a key that is not present (an
unrecoverable process abort, not a `ProgramError`). -/
inductive ViewPanic where
  | buildFailed (e : ProgramError)
  | missingKey (jobid : String)
deriving DecidableEq

/-- `view` (src/main.rs:148-162): the `(ending, body)` pairs printed for
the `out` and `err` logs of the resolved job directory (the bolded header
formatting is elided). -/
def view (fs : FSNode) (target : String) : Except ViewPanic (List (String × String)) :=
  match build_job_map fs ["multirun"] with
  | .error e => .error (.buildFailed e)
  | .ok m =>
    match m.lookupKey target with
    | none => .error (.missingKey target)
    | some job_path =>
      .ok (["out", "err"].map (fun ending =>
        (ending, get_log_content_or_error_msg fs job_path ending)))

/-! ### Well-shaped multirun trees, for the index-builder claims

A `TreeSpec` describes a root tree of the shape
`root/<date>/<time>/.submitit/<job-id>`: each date maps to its list of
time directories, and each time directory either lacks the `.submitit`
metadata subdirectory (`none`) or carries the list of its job-id
basenames (`some jobs`, possibly empty). -/

/-- A time-level directory: `none` when it has no `.submitit`
subdirectory, `some jobs` for the job-id basenames below `.submitit`. -/
abbrev HmsSpec := Option (List String)

/-- A date-level directory: its named time-level subdirectories. -/
abbrev YmdSpec := List (String × HmsSpec)

/-- A root tree: its named date-level subdirectories. -/
abbrev TreeSpec := List (String × YmdSpec)

/-- The `.submitit` directory holding one (leaf) directory per job id. -/
def mkSubmititNode (jobs : List String) : FSNode :=
  .dir (some (jobs.map (fun j => (j, .dir (some [])))))

/-- A time-level directory node. -/
def mkHmsNode : HmsSpec → FSNode
  | none => .dir (some [])
  | some jobs => .dir (some [(".submitit", mkSubmititNode jobs)])

/-- A date-level directory node. -/
def mkYmdNode (hmss : YmdSpec) : FSNode :=
  .dir (some (hmss.map (fun p => (p.1, mkHmsNode p.2))))

/-- The root node of a well-shaped multirun tree. -/
def mkJobTree (t : TreeSpec) : FSNode :=
  .dir (some (t.map (fun p => (p.1, mkYmdNode p.2))))

/-- The job entries contributed by one time-level directory. -/
def hmsJobEntries (d tm : String) : HmsSpec → JobMap
  | none => []
  | some jobs => jobs.map (fun j => (j, [d, tm, ".submitit", j]))

/-- The job entries contributed by one date-level directory. -/
def ymdJobEntries (d : String) (hmss : YmdSpec) : JobMap :=
  (hmss.map (fun q => hmsJobEntries d q.1 q.2)).flatten

/-- All job entries of a well-shaped tree, in walk order. -/
def treeJobEntries (t : TreeSpec) : JobMap :=
  (t.map (fun p => ymdJobEntries p.1 p.2)).flatten

/-- All job-id basenames of a well-shaped tree. -/
def treeJobNames (t : TreeSpec) : List String := (treeJobEntries t).map Prod.fst

/-- The number of leaf job directories of a well-shaped tree. -/
def leafCount (t : TreeSpec) : Nat :=
  (t.map (fun p => (p.2.map (fun q => (q.2.getD []).length)).sum)).sum

/-- Strict descending comparison on job identifiers: `a` is
lexicographically greater than `b`. -/
def strGt (a b : String) : Prop := strLe b.data a.data = true ∧ a ≠ b

/-! ### Concrete filesystems used as witnesses and counterexamples -/

/-- A working directory holding one `multirun` tree with a single job
`123` whose `.out` log matches the pattern `alpha` on two lines. -/
def exTree : FSNode :=
  .dir (some [("multirun", .dir (some [
    ("2024-01-01", .dir (some [
      ("12-00-00", .dir (some [(".submitit", .dir (some [
        ("123", .dir (some [
          ("app.out", .file (some "alpha 1\nbeta 2\nalpha 3")),
          ("app.err", .file (some "oops"))]))]))])),
      ("13-00-00", .dir (some []))]))]))])

/-- The directory of job `123` inside `exTree`. -/
def exJobPath : FsPath := ["multirun", "2024-01-01", "12-00-00", ".submitit", "123"]

/-- A root with one job directory that exists but cannot be listed. -/
def exC3fs : FSNode := .dir (some [("jobdir", .dir none)])

/-- A root with one job directory whose `.out` log exists but cannot be
read as text. -/
def exC10fs : FSNode := .dir (some [("job", .dir (some [("a.out", .file none)]))])

/-- A time-level directory with no `.submitit` subdirectory. -/
def exC2skip : FSNode := .dir (some [("t", .dir (some []))])

/-- A time-level directory whose `.submitit` exists but cannot be listed. -/
def exC2meta : FSNode := .dir (some [("t", .dir (some [(".submitit", .dir none)]))])

/-- A date-level directory that exists but cannot be listed. -/
def exC2date : FSNode := .dir (some [("d", .dir none)])

/-- A tree spec exercising empty date/time levels, a time level without
`.submitit`, and an empty `.submitit`. -/
def exSpec : TreeSpec :=
  [("2024-01-01", [("12-00-00", some ["123", "124"]), ("13-00-00", none),
                   ("14-00-00", some [])]),
   ("2024-01-02", []),
   ("2024-01-03", [("09-00-00", some ["7"])])]

/-! ## Theorems -/

/-- Evaluating `rustLines` on the empty content gives no lines. -/
theorem rustLines_empty : rustLines "" = [] := rfl

/-- C2: during the index walk, a time-level directory whose `.submitit`
metadata subdirectory is absent is skipped silently (contributing exactly
the entries of the remaining directories, with no error), whereas a
listing failure on a directory that does exist — the `.submitit`
directory, or a date-level directory whose listing yields the time level —
propagates as an error that aborts the build. -/
theorem C2_skip_absent_fail_unreadable :
    (∀ (fs : FSNode) (m : JobMap) (hms : FsPath) (rest : List FsPath),
       resolve fs (hms ++ [".submitit"]) = none →
       processHms fs m (hms :: rest) = processHms fs m rest)
    ∧ (∀ (fs : FSNode) (m : JobMap) (hms : FsPath) (rest : List FsPath)
         (node : FSNode) (e : ProgramError),
       resolve fs (hms ++ [".submitit"]) = some node →
       get_subdirectories fs (hms ++ [".submitit"]) = .error e →
       processHms fs m (hms :: rest) = .error e)
    ∧ (∀ (fs : FSNode) (m : JobMap) (ymd : FsPath) (rest : List FsPath)
         (node : FSNode) (e : ProgramError),
       resolve fs ymd = some node →
       get_subdirectories fs ymd = .error e →
       processYmd fs m (ymd :: rest) = .error e) := by
  refine ⟨?_, ?_, ?_⟩
  · intro fs m hms rest h
    simp [processHms, h]
  · intro fs m hms rest node e h1 h2
    simp [processHms, h1, h2]
  · intro fs m ymd rest node e _ h2
    simp [processYmd, h2]

/-- Witness for C2 on concrete trees: a time directory without
`.submitit` is skipped; an unlistable `.submitit` and an unlistable date
directory each abort with `FileNotFound`. -/
theorem C2_witness :
    processHms exC2skip [] [["t"]] = processHms exC2skip [] []
    ∧ processHms exC2meta [] [["t"]] = .error (.FileNotFound ["t", ".submitit"])
    ∧ processYmd exC2date [] [["d"]] = .error (.FileNotFound ["d"]) :=
  ⟨C2_skip_absent_fail_unreadable.1 exC2skip [] ["t"] [] rfl,
   C2_skip_absent_fail_unreadable.2.1 exC2meta [] ["t"] [] (.dir none)
     (.FileNotFound ["t", ".submitit"]) rfl rfl,
   C2_skip_absent_fail_unreadable.2.2 exC2date [] ["d"] [] (.dir none)
     (.FileNotFound ["d"]) rfl rfl⟩

/-- C5: `get_log_content_or_error_msg` is total — for every input it
returns a string, and that string is exactly one of: the path-resolution
error's display message, the log content verbatim, or the fixed fallback
`"Could not read log."` when the path resolves but the content cannot be
read as text. -/
theorem C5_get_log_or_error_text_total (fs : FSNode) (dir : FsPath) (ending : String) :
    (∃ e, get_log_pathbuf fs dir ending = .error e
       ∧ get_log_content_or_error_msg fs dir ending = ProgramError.message e)
    ∨ (∃ fp c, get_log_pathbuf fs dir ending = .ok fp
       ∧ get_log_content fs fp = some c
       ∧ get_log_content_or_error_msg fs dir ending = c)
    ∨ (∃ fp, get_log_pathbuf fs dir ending = .ok fp
       ∧ get_log_content fs fp = none
       ∧ get_log_content_or_error_msg fs dir ending = "Could not read log.") := by
  match h : get_log_pathbuf fs dir ending with
  | .error e =>
    exact .inl ⟨e, rfl, by simp [get_log_content_or_error_msg, h]⟩
  | .ok fp =>
    match hc : get_log_content fs fp with
    | some c =>
      exact .inr (.inl ⟨fp, c, rfl, hc, by simp [get_log_content_or_error_msg, h, hc]⟩)
    | none =>
      exact .inr (.inr ⟨fp, rfl, hc, by simp [get_log_content_or_error_msg, h, hc]⟩)

/-- C8: when the pattern fails to compile, `search` aborts with the
compilation failure, and its outcome is independent of the filesystem and
of the scheduler query — it fails before any filesystem or directory
access, carrying the compilation error message (which names the invalid
pattern). -/
theorem C8_invalid_pattern_fails_before_fs
    (msg : String) (fs fs2 : FSNode) (s_ids s_active sq sq2 : Bool) (so so2 : String) :
    searchCmd (.error msg) fs s_ids s_active sq so = .error (.badRegex msg)
    ∧ searchCmd (.error msg) fs s_ids s_active sq so
        = searchCmd (.error msg) fs2 s_ids s_active sq2 so2 :=
  ⟨rfl, rfl⟩

/-- Counterexample to C9: on a concrete index holding only job `123`,
`view` of the unknown identifier `999` terminates through the
missing-key indexing panic (`job_map[&target]`, an unrecoverable process
abort modelled by `ViewPanic.missingKey`) — it is not classified as a
user-facing NotFound-style error. -/
theorem C9_counterexample :
    view exTree "999" = .error (.missingKey "999") := rfl

/-- C9 as amended: when `view` is invoked with a job identifier not
present in the built index, it terminates through the unrecoverable
missing-key indexing panic, rather than surfacing a user-facing
NotFound-style error. -/
theorem C9_unknown_id_panics :
    ∀ (fs : FSNode) (target : String) (m : JobMap),
      build_job_map fs ["multirun"] = .ok m →
      m.lookupKey target = none →
      view fs target = .error (.missingKey target) := by
  intro fs target m hb hl
  simp [view, hb, hl]

/-- Witness for the amended C9 at a concrete tree and identifier. -/
theorem C9_witness :
    view exTree "321" = .error (.missingKey "321") :=
  C9_unknown_id_panics exTree "321" [("123", exJobPath)] rfl rfl

/-- C10: in `search`, when a job's `.out` log path resolves but its
content cannot be read as text, the content degrades to the empty string,
so the job contributes zero matching lines and is silently excluded from
the results — while `view`'s display path would show the fallback text
instead. -/
theorem C10_unreadable_content_excluded :
    ∀ (fs : FSNode) (re : Matcher) (af : Bool) (aj : List String) (id : String)
      (dir : FsPath) (rest : List (String × FsPath)) (fp : FsPath),
      (af = true → aj.contains id = true) →
      get_log_pathbuf fs dir "out" = .ok fp →
      get_log_content fs fp = none →
      processEntries fs re af aj ((id, dir) :: rest) = processEntries fs re af aj rest
      ∧ get_log_content_or_error_msg fs dir "out" = "Could not read log." := by
  intro fs re af aj id dir rest fp hact hfp hc
  have hskip : (af && !aj.contains id) = false := by
    cases af with
    | false => rfl
    | true =>
        rw [hact rfl]
        rfl
  refine ⟨?_, by simp [get_log_content_or_error_msg, hfp, hc]⟩
  simp [processEntries, hskip, hfp, hc, rustLines_empty]

/-- Witness for C10: a job whose `.out` log is unreadable is excluded. -/
theorem C10_witness :
    processEntries exC10fs (literalMatcher "x") false [] [("j", ["job"])]
        = processEntries exC10fs (literalMatcher "x") false [] []
    ∧ get_log_content_or_error_msg exC10fs ["job"] "out" = "Could not read log." :=
  C10_unreadable_content_excluded exC10fs (literalMatcher "x") false [] "j" ["job"] []
    ["job", "a.out"] (fun h => nomatch h) rfl rfl

/-- `findLog` returns the first matching regular file, else `LogNotFound`. -/
theorem findLog_eq_find? (dir : FsPath) (ending : String) :
    ∀ entries : List (String × FSNode),
      findLog dir ending entries =
        match entries.find? (fun e => e.2.isFile && (extension e.1 == some ending)) with
        | some e => .ok (dir ++ [e.1])
        | none => .error (.LogNotFound dir ending)
  | [] => rfl
  | (name, node) :: rest => by
    by_cases h : (node.isFile && (extension name == some ending)) = true
    · simp [findLog, List.find?_cons, h]
    · simp only [findLog, List.find?_cons]
      rw [Bool.not_eq_true] at h
      simp only [h, if_false]
      exact findLog_eq_find? dir ending rest

/-- Counterexample to C3: on a job directory that exists but cannot be
listed, `get_log_pathbuf` fails with the `FileNotFound` error kind, which
is a different error from `LogNotFound{dir, extension}` — the two failure
cases are not folded into the same error kind. -/
theorem C3_counterexample :
    get_log_pathbuf exC3fs ["jobdir"] "out" = .error (.FileNotFound ["jobdir"])
    ∧ (Except.error (ProgramError.FileNotFound ["jobdir"]) : PResult FsPath)
        ≠ .error (.LogNotFound ["jobdir"] "out") :=
  ⟨rfl, by intro h; simp at h⟩

/-- C3 as amended: `get_log_pathbuf` returns the first regular file in
`jobDir` whose extension matches exactly; when the directory is listable
but holds no matching file it fails with `LogNotFound{dir, extension}`,
and when `jobDir` itself cannot be listed it fails with the distinct
`FileNotFound{dir}` error kind (the two cases are kept distinguishable,
not folded into one kind). -/
theorem C3_first_match_or_error (fs : FSNode) (dir : FsPath) (ending : String) :
    (readDirRaw fs dir = none →
      get_log_pathbuf fs dir ending = .error (.FileNotFound dir))
    ∧ (∀ entries, readDirRaw fs dir = some entries →
        get_log_pathbuf fs dir ending =
          match entries.find? (fun e => e.2.isFile && (extension e.1 == some ending)) with
          | some e => .ok (dir ++ [e.1])
          | none => .error (.LogNotFound dir ending)) := by
  constructor
  · intro h
    simp [get_log_pathbuf, h]
  · intro entries h
    rw [← findLog_eq_find?]
    simp [get_log_pathbuf, h]

/-- Witness for the amended C3: the unlistable directory gives
`FileNotFound`; a listable directory gives the first `.out` file. -/
theorem C3_witness :
    get_log_pathbuf exC3fs ["jobdir"] "out" = .error (.FileNotFound ["jobdir"])
    ∧ get_log_pathbuf exTree exJobPath "out" = .ok (exJobPath ++ ["app.out"]) :=
  ⟨(C3_first_match_or_error exC3fs ["jobdir"] "out").1 rfl,
   (C3_first_match_or_error exTree exJobPath "out").2
     [("app.out", .file (some "alpha 1\nbeta 2\nalpha 3")),
      ("app.err", .file (some "oops"))] rfl⟩

/-- Every job emitted by the `search` loop under `--active` has its
identifier in the active list. -/
theorem processEntries_active_mem (fs : FSNode) (re : Matcher) (aj : List String) :
    ∀ (entries : List (String × FsPath)) (r : String × FsPath × List String),
      r ∈ processEntries fs re true aj entries → r.1 ∈ aj
  | [], r, hr => absurd hr (by simp [processEntries])
  | (id, dir) :: rest, r, hr => by
    by_cases hmem : aj.contains id = true
    · simp only [processEntries, hmem, Bool.not_true, Bool.and_false, Bool.false_eq_true,
        if_false] at hr
      match hfp : get_log_pathbuf fs dir "out" with
      | .error e =>
        simp only [hfp] at hr
        exact processEntries_active_mem fs re aj rest r hr
      | .ok fp =>
        simp only [hfp] at hr
        split at hr
        · exact processEntries_active_mem fs re aj rest r hr
        · rcases List.mem_cons.mp hr with heq | htl
          · subst heq
            simpa using hmem
          · exact processEntries_active_mem fs re aj rest r htl
    · simp only [processEntries, Bool.not_eq_true] at hmem
      simp only [processEntries, hmem, Bool.not_false, Bool.and_true, if_true] at hr
      exact processEntries_active_mem fs re aj rest r hr

/-- C7: under `--active`, `search` emits only jobs whose identifier is in
the externally supplied active list (exact string match); a failed
scheduler query yields the empty active list; and with an empty active
list — in particular after a failed query — `search` produces zero
results regardless of pattern matches, never falling back to all jobs. -/
theorem C7_active_filter :
    (∀ stdout : String, get_active_slurm_jobs false stdout = [])
    ∧ (∀ (fs : FSNode) (re : Matcher) (entries : List (String × FsPath)),
        processEntries fs re true [] entries = [])
    ∧ (∀ (fs : FSNode) (re : Matcher) (aj : List String)
        (entries : List (String × FsPath)) (r : String × FsPath × List String),
        r ∈ processEntries fs re true aj entries → r.1 ∈ aj)
    ∧ (∀ (re : Matcher) (fs : FSNode) (s_ids : Bool) (stdout : String) (m : JobMap),
        build_job_map fs ["multirun"] = .ok m →
        searchCmd (.ok re) fs s_ids true false stdout = .ok []) := by
  refine ⟨fun _ => rfl, ?_, processEntries_active_mem, ?_⟩
  · intro fs re entries
    rw [List.eq_nil_iff_forall_not_mem]
    intro r hr
    simpa using processEntries_active_mem fs re [] entries r hr
  · intro re fs s_ids stdout m hb
    have hempty : processEntries fs re true [] (sortEntriesDesc m) = [] := by
      rw [List.eq_nil_iff_forall_not_mem]
      intro r hr
      simpa using processEntries_active_mem fs re [] (sortEntriesDesc m) r hr
    simp [searchCmd, hb, get_active_slurm_jobs, hempty]

/-- Witness for C7 at a concrete tree whose job `123` has a matching
log: a failed query yields no active jobs, the empty active list yields
zero results, an emitted job id under `--active` lies in the active
list, and `--active` after a failed query yields zero search results. -/
theorem C7_witness :
    get_active_slurm_jobs false "123\n456" = []
    ∧ processEntries exTree (literalMatcher "alpha") true [] [("123", exJobPath)] = []
    ∧ (("123", exJobPath,
         ["\x1b[31malpha\x1b[0m 1", "\x1b[31malpha\x1b[0m 3"]) :
         String × FsPath × List String).1 ∈ ["123"]
    ∧ searchCmd (.ok (literalMatcher "alpha")) exTree false true false "" = .ok [] :=
  ⟨C7_active_filter.1 "123\n456",
   C7_active_filter.2.1 exTree (literalMatcher "alpha") [("123", exJobPath)],
   C7_active_filter.2.2.1 exTree (literalMatcher "alpha") ["123"] [("123", exJobPath)]
     _ (by decide),
   C7_active_filter.2.2.2 (literalMatcher "alpha") exTree false "" [("123", exJobPath)] rfl⟩

/-- A guarded `filterMap` is a `filter` followed by a `map`. -/
theorem filterMap_if_eq_map_filter {α β : Type _} (p : α → Bool) (f : α → β) :
    ∀ l : List α,
      l.filterMap (fun a => if p a then some (f a) else none) = (l.filter p).map f
  | [] => rfl
  | a :: l => by
    by_cases h : p a = true <;>
      simp [List.filterMap_cons, List.filter_cons, h, filterMap_if_eq_map_filter p f l]

/-- The filtered-and-mapped list is empty exactly when no element
satisfies the filter. -/
theorem filter_map_isEmpty {α β : Type _} (p : α → Bool) (f : α → β) (l : List α) :
    ((l.filter p).map f).isEmpty = !l.any p := by
  induction l with
  | nil => rfl
  | cons a l ih => by_cases h : p a = true <;> simp [List.filter_cons, h, ih]

/-- C6: `search` evaluates the pattern line-by-line — a job whose `.out`
content is readable is included in the results exactly when at least one
of its lines matches, the emitted lines are exactly the matching lines
(non-matching lines omitted) each rewritten by `replace_all`, which wraps
every matched span in the red highlight marker; concretely, for log lines
`alpha 1`, `beta 2`, `alpha 3` and the pattern `alpha`, exactly two lines
are returned, each with the `alpha` span wrapped in the highlight
marker. -/
theorem C6_line_by_line_highlight :
    (∀ (fs : FSNode) (re : Matcher) (af : Bool) (aj : List String) (id : String)
       (dir : FsPath) (rest : List (String × FsPath)) (fp : FsPath) (c : String),
       (af = true → aj.contains id = true) →
       get_log_pathbuf fs dir "out" = .ok fp →
       get_log_content fs fp = some c →
       processEntries fs re af aj ((id, dir) :: rest) =
         (if (rustLines c).any re.isMatch then
            [(id, dir, ((rustLines c).filter re.isMatch).map
                (fun l => String.mk (re.replaceAll l)))]
          else []) ++ processEntries fs re af aj rest)
    ∧ processEntries exTree (literalMatcher "alpha") false [] [("123", exJobPath)] =
        [("123", exJobPath, ["\x1b[31malpha\x1b[0m 1", "\x1b[31malpha\x1b[0m 3"])] := by
  constructor
  · intro fs re af aj id dir rest fp c hact hfp hc
    have hskip : (af && !aj.contains id) = false := by
      cases af with
      | false => rfl
      | true => rw [hact rfl]; rfl
    simp only [processEntries, hskip, Bool.false_eq_true, if_false, hfp, hc,
      Option.getD_some]
    simp only [filterMap_if_eq_map_filter, filter_map_isEmpty]
    by_cases hany : (rustLines c).any re.isMatch = true
    · simp [hany]
    · rw [Bool.not_eq_true] at hany
      simp [hany]
  · rfl

/-- Witness for C6 at the concrete tree: job `123`, whose `.out` log is
the three-line content above, is emitted with its highlighted matching
lines. -/
theorem C6_witness :
    processEntries exTree (literalMatcher "alpha") false [] [("123", exJobPath)] =
      (if (rustLines "alpha 1\nbeta 2\nalpha 3").any (literalMatcher "alpha").isMatch then
         [("123", exJobPath,
           ((rustLines "alpha 1\nbeta 2\nalpha 3").filter
               (literalMatcher "alpha").isMatch).map
             (fun l => String.mk ((literalMatcher "alpha").replaceAll l)))]
       else []) ++ processEntries exTree (literalMatcher "alpha") false [] [] :=
  C6_line_by_line_highlight.1 exTree (literalMatcher "alpha") false [] "123" exJobPath []
    (exJobPath ++ ["app.out"]) "alpha 1\nbeta 2\nalpha 3" (fun h => nomatch h) rfl rfl

/-- Lexicographic comparison of identifier characters is transitive. -/
theorem strLe_trans : ∀ a b c : List Char,
    strLe a b = true → strLe b c = true → strLe a c = true
  | [], _, _, _, _ => rfl
  | _ :: _, [], _, hab, _ => by simp [strLe] at hab
  | _ :: _, _ :: _, [], _, hbc => by simp [strLe] at hbc
  | x :: xs, y :: ys, z :: zs, hab, hbc => by
    simp only [strLe] at hab hbc ⊢
    by_cases hxy : x = y
    · subst hxy
      by_cases hxz : x = z
      · subst hxz
        simp only [if_pos rfl] at hab hbc ⊢
        exact strLe_trans xs ys zs hab hbc
      · simp only [if_pos rfl] at hab
        simp only [hxz, if_false] at hbc ⊢
        exact hbc
    · by_cases hyz : y = z
      · subst hyz
        simp only [hxy, if_false] at hab ⊢
        exact hab
      · simp only [hxy, if_false, decide_eq_true_eq] at hab
        simp only [hyz, if_false, decide_eq_true_eq] at hbc
        have hxz : x < z := lt_trans hab hbc
        simp only [ne_of_lt hxz, if_false, decide_eq_true_eq]
        exact hxz

/-- Lexicographic comparison of identifier characters is total. -/
theorem strLe_total : ∀ a b : List Char, (strLe a b || strLe b a) = true
  | [], _ => by simp [strLe]
  | _ :: _, [] => by simp [strLe]
  | x :: xs, y :: ys => by
    simp only [strLe]
    by_cases hxy : x = y
    · subst hxy
      simp only [if_pos rfl]
      exact strLe_total xs ys
    · have hyx : ¬(y = x) := fun h => hxy h.symm
      rcases lt_trichotomy x y with h | h | h
      · simp [hxy, hyx, h]
      · exact absurd h hxy
      · simp [hxy, hyx, h]

/-- The descending comparator of `search` is transitive. -/
theorem cmpGeKey_trans (a b c : String × FsPath) :
    cmpGeKey a b = true → cmpGeKey b c = true → cmpGeKey a c = true :=
  fun h1 h2 => strLe_trans c.1.data b.1.data a.1.data h2 h1

/-- The descending comparator of `search` is total. -/
theorem cmpGeKey_total (a b : String × FsPath) :
    (cmpGeKey a b || cmpGeKey b a) = true :=
  strLe_total b.1.data a.1.data

/-- The identifiers emitted by the `search` loop form a subsequence of the
identifiers of the entry list it iterates. -/
theorem processEntries_fst_sublist (fs : FSNode) (re : Matcher) (af : Bool)
    (aj : List String) :
    ∀ entries : List (String × FsPath),
      ((processEntries fs re af aj entries).map (fun r => r.1)).Sublist
        (entries.map Prod.fst)
  | [] => List.Sublist.slnil
  | (id, dir) :: rest => by
    have ih := processEntries_fst_sublist fs re af aj rest
    simp only [processEntries, List.map_cons]
    by_cases hskip : (af && !aj.contains id) = true
    · simp only [hskip, if_true]
      exact ih.cons _
    · rw [Bool.not_eq_true] at hskip
      simp only [hskip, Bool.false_eq_true, if_false]
      cases hfp : get_log_pathbuf fs dir "out" with
      | error e => exact ih.cons _
      | ok fp =>
        dsimp only
        by_cases hie : ((rustLines ((get_log_content fs fp).getD "")).filterMap
              (fun line => if re.isMatch line = true
                then some (String.mk (re.replaceAll line)) else none)).isEmpty = true
        · rw [if_pos hie]
          exact ih.cons _
        · rw [if_neg hie]
          exact ih.cons₂ _

/-- C4: `search` iterates job entries in strictly descending
lexicographic identifier order — for any two emitted jobs the earlier
one's identifier is lexicographically greater — and on an index with keys
`10`, `2`, `30` the sorted iteration order is `30`, `2`, `10`. -/
theorem C4_descending_iteration :
    (∀ (m : JobMap) (fs : FSNode) (re : Matcher) (af : Bool) (aj : List String),
       (m.map Prod.fst).Nodup →
       ((processEntries fs re af aj (sortEntriesDesc m)).map (fun r => r.1)).Pairwise strGt)
    ∧ (sortEntriesDesc [("10", []), ("2", []), ("30", [])]).map Prod.fst
        = ["30", "2", "10"] := by
  constructor
  · intro m fs re af aj hnd
    have hsorted : (sortEntriesDesc m).Pairwise (fun a b => cmpGeKey a b = true) :=
      List.sorted_mergeSort cmpGeKey_trans cmpGeKey_total m
    have hperm : (sortEntriesDesc m).Perm m := List.mergeSort_perm m cmpGeKey
    have hnd2 : ((sortEntriesDesc m).map Prod.fst).Nodup := by
      rw [(hperm.map Prod.fst).nodup_iff]
      exact hnd
    have hne : (sortEntriesDesc m).Pairwise (fun a b => a.1 ≠ b.1) :=
      (List.pairwise_map).mp hnd2
    have hgt : (sortEntriesDesc m).Pairwise (fun a b => strGt a.1 b.1) :=
      (hsorted.and hne).imp (fun h => ⟨h.1, h.2⟩)
    have hp : ((sortEntriesDesc m).map (fun r => r.1)).Pairwise strGt :=
      (List.pairwise_map).mpr hgt
    exact List.Pairwise.sublist
      (processEntries_fst_sublist fs re af aj (sortEntriesDesc m)) hp
  · simp [sortEntriesDesc, List.mergeSort, List.merge, cmpGeKey, strLe]

/-- Witness for C4: a concrete three-entry index with distinct keys. -/
theorem C4_witness :
    ((processEntries exTree (literalMatcher "alpha") false []
        (sortEntriesDesc [("10", ["a"]), ("2", ["b"]), ("30", ["c"])])).map
      (fun r => r.1)).Pairwise strGt :=
  C4_descending_iteration.1 [("10", ["a"]), ("2", ["b"]), ("30", ["c"])] exTree
    (literalMatcher "alpha") false [] (by decide)

/-- On an association list with distinct keys, `find?` locates exactly the
member with the sought key. -/
theorem find?_keyed_eq {β : Type _} :
    ∀ (l : List (String × β)) (k : String) (v : β),
      (k, v) ∈ l → (l.map Prod.fst).Nodup →
      l.find? (fun e => e.1 == k) = some (k, v)
  | [], k, v, hmem, _ => absurd hmem (List.not_mem_nil _)
  | (a, b) :: tl, k, v, hmem, hnd => by
    rw [List.map_cons, List.nodup_cons] at hnd
    by_cases hak : a = k
    · subst hak
      rcases List.mem_cons.mp hmem with heq | htl
      · rw [List.find?_cons]
        cases heq
        simp
      · exact absurd (List.mem_map_of_mem Prod.fst htl) hnd.1
    · have hmem2 : (k, v) ∈ tl := by
        rcases List.mem_cons.mp hmem with heq | htl
        · cases heq
          exact absurd rfl hak
        · exact htl
      rw [List.find?_cons]
      have : ((a, b).1 == k) = false := by simpa using hak
      rw [this]
      exact find?_keyed_eq tl k v hmem2 hnd.2

/-- Key lookup on a job map with distinct keys finds the stored path. -/
theorem lookupKey_keyed (m : JobMap) (k : String) (v : FsPath)
    (hmem : (k, v) ∈ m) (hnd : (m.map Prod.fst).Nodup) :
    m.lookupKey k = some v := by
  unfold JobMap.lookupKey
  rw [find?_keyed_eq m k v hmem hnd]
  rfl

/-- Child lookup in a directory built from a keyed specification list. -/
theorem lookupChild_keyed {β : Type _} (F : β → FSNode) (l : List (String × β))
    (k : String) (v : β) (hmem : (k, v) ∈ l) (hnd : (l.map Prod.fst).Nodup) :
    FSNode.lookupChild (.dir (some (l.map (fun p => (p.1, F p.2))))) k
      = some (F v) := by
  have hmem2 : (k, F v) ∈ l.map (fun p => (p.1, F p.2)) :=
    List.mem_map.mpr ⟨(k, v), hmem, rfl⟩
  have hnd2 : ((l.map (fun p => (p.1, F p.2))).map Prod.fst).Nodup := by
    rw [List.map_map]
    exact hnd
  rw [FSNode.lookupChild, find?_keyed_eq _ k (F v) hmem2 hnd2]
  rfl

/-- Resolution distributes over path concatenation. -/
theorem resolve_append (fs : FSNode) : ∀ (p q : FsPath),
    resolve fs (p ++ q) = (resolve fs p).bind (fun n => resolve n q)
  | [], _ => rfl
  | c :: p, q => by
    rw [List.cons_append, resolve, resolve]
    cases fs.lookupChild c with
    | none => rfl
    | some child => exact resolve_append child p q

/-- Resolving a date-level directory of a well-shaped tree. -/
theorem resolve_tree_ymd (t : TreeSpec) (d : String) (hmss : YmdSpec)
    (hmem : (d, hmss) ∈ t) (hnd : (t.map Prod.fst).Nodup) :
    resolve (mkJobTree t) [d] = some (mkYmdNode hmss) := by
  rw [resolve, mkJobTree, lookupChild_keyed mkYmdNode t d hmss hmem hnd]
  rfl

/-- Resolving a time-level directory of a well-shaped tree. -/
theorem resolve_tree_hms (t : TreeSpec) (d : String) (hmss : YmdSpec)
    (tm : String) (spec : HmsSpec)
    (hmem : (d, hmss) ∈ t) (hnd : (t.map Prod.fst).Nodup)
    (hmemh : (tm, spec) ∈ hmss) (hndh : (hmss.map Prod.fst).Nodup) :
    resolve (mkJobTree t) [d, tm] = some (mkHmsNode spec) := by
  have h1 : resolve (mkJobTree t) ([d] ++ [tm])
      = (resolve (mkJobTree t) [d]).bind (fun n => resolve n [tm]) :=
    resolve_append (mkJobTree t) [d] [tm]
  rw [show ([d] ++ [tm] : FsPath) = [d, tm] from rfl] at h1
  rw [h1, resolve_tree_ymd t d hmss hmem hnd]
  show resolve (mkYmdNode hmss) [tm] = some (mkHmsNode spec)
  rw [resolve, mkYmdNode, lookupChild_keyed mkHmsNode hmss tm spec hmemh hndh]
  rfl

/-- Resolving `.submitit` under a time-level directory that has one. -/
theorem resolve_tree_submitit_some (t : TreeSpec) (d : String) (hmss : YmdSpec)
    (tm : String) (jobs : List String)
    (hmem : (d, hmss) ∈ t) (hnd : (t.map Prod.fst).Nodup)
    (hmemh : (tm, some jobs) ∈ hmss) (hndh : (hmss.map Prod.fst).Nodup) :
    resolve (mkJobTree t) [d, tm, ".submitit"] = some (mkSubmititNode jobs) := by
  have h1 : resolve (mkJobTree t) ([d, tm] ++ [".submitit"])
      = (resolve (mkJobTree t) [d, tm]).bind (fun n => resolve n [".submitit"]) :=
    resolve_append (mkJobTree t) [d, tm] [".submitit"]
  rw [show ([d, tm] ++ [".submitit"] : FsPath) = [d, tm, ".submitit"] from rfl] at h1
  rw [h1, resolve_tree_hms t d hmss tm (some jobs) hmem hnd hmemh hndh]
  simp [mkHmsNode, resolve, FSNode.lookupChild]

/-- Resolving `.submitit` under a time-level directory that lacks one. -/
theorem resolve_tree_submitit_none (t : TreeSpec) (d : String) (hmss : YmdSpec)
    (tm : String)
    (hmem : (d, hmss) ∈ t) (hnd : (t.map Prod.fst).Nodup)
    (hmemh : (tm, (none : HmsSpec)) ∈ hmss) (hndh : (hmss.map Prod.fst).Nodup) :
    resolve (mkJobTree t) [d, tm, ".submitit"] = none := by
  have h1 : resolve (mkJobTree t) ([d, tm] ++ [".submitit"])
      = (resolve (mkJobTree t) [d, tm]).bind (fun n => resolve n [".submitit"]) :=
    resolve_append (mkJobTree t) [d, tm] [".submitit"]
  rw [show ([d, tm] ++ [".submitit"] : FsPath) = [d, tm, ".submitit"] from rfl] at h1
  rw [h1, resolve_tree_hms t d hmss tm none hmem hnd hmemh hndh]
  simp [mkHmsNode, resolve, FSNode.lookupChild]

/-- `get_subdirectories` on a resolvable directory all of whose entries
are directories lists all their paths. -/
theorem get_subdirectories_of_resolve (fs : FSNode) (p : FsPath)
    (l : List (String × FSNode)) (hres : resolve fs p = some (.dir (some l)))
    (hall : ∀ e ∈ l, e.2.isDir = true) :
    get_subdirectories fs p = .ok (l.map (fun e => p ++ [e.1])) := by
  rw [get_subdirectories, readDirRaw, hres]
  dsimp only
  rw [List.filter_eq_self.mpr hall]

/-- Inserting a fresh key appends the binding. -/
theorem insertKV_fresh (m : JobMap) (k : String) (v : FsPath)
    (h : k ∉ m.map Prod.fst) : m.insertKV k v = m ++ [(k, v)] := by
  unfold JobMap.insertKV
  rw [List.filter_eq_self.mpr]
  intro e he
  have : e.1 ≠ k := fun heq => h (heq ▸ List.mem_map_of_mem Prod.fst he)
  simpa using this

/-- Inserting distinct fresh job basenames appends their bindings in
order. -/
theorem insertJobs_fresh (p : FsPath) :
    ∀ (jobs : List String) (m : JobMap),
      (∀ j ∈ jobs, j ∉ m.map Prod.fst) → jobs.Nodup →
      insertJobs m (jobs.map (fun j => p ++ [j])) =
        m ++ jobs.map (fun j => (j, p ++ [j]))
  | [], m, _, _ => by simp [insertJobs]
  | j :: js, m, hfresh, hnd => by
    rw [List.nodup_cons] at hnd
    have hgl : (p ++ [j]).getLast? = some j := List.getLast?_concat p
    rw [List.map_cons]
    show insertJobs m ((p ++ [j]) :: js.map (fun j => p ++ [j])) = _
    rw [insertJobs, List.foldl_cons, hgl]
    show List.foldl _ (m.insertKV j (p ++ [j])) _ = _
    rw [insertKV_fresh m j (p ++ [j]) (hfresh j (List.mem_cons_self j js))]
    have hfresh2 : ∀ x ∈ js, x ∉ (m ++ [(j, p ++ [j])]).map Prod.fst := by
      intro x hx
      rw [List.map_append, List.mem_append]
      rintro (hm | hj)
      · exact hfresh x (List.mem_cons_of_mem j hx) hm
      · simp only [List.map_cons, List.map_nil, List.mem_singleton] at hj
        exact hnd.1 (hj ▸ hx)
    have := insertJobs_fresh p js (m ++ [(j, p ++ [j])]) hfresh2 hnd.2
    rw [insertJobs] at this
    rw [this, List.append_assoc]
    rfl

/-- Unfolding of `processHms` at a cons cell. -/
theorem processHms_cons (fs : FSNode) (m : JobMap) (hms : FsPath)
    (rest : List FsPath) :
    processHms fs m (hms :: rest) =
      if (resolve fs (hms ++ [".submitit"])).isSome then
        match get_subdirectories fs (hms ++ [".submitit"]) with
        | .error e => .error e
        | .ok jobs => processHms fs (insertJobs m jobs) rest
      else processHms fs m rest := rfl

/-- Taking first components after pairing each element with a value gives
back the original list. -/
theorem map_fst_keyed {α β : Type _} (g : α → β) (l : List α) :
    l.map (Prod.fst ∘ fun j => (j, g j)) = l := by
  induction l with
  | nil => rfl
  | cons a l ih => simpa [Function.comp] using ih

/-- The basenames of the entries contributed by one time-level directory
are its job ids. -/
theorem hmsJobEntries_keys (d tm : String) (spec : HmsSpec) :
    (hmsJobEntries d tm spec).map Prod.fst = spec.getD [] := by
  cases spec with
  | none => rfl
  | some jobs =>
    show (jobs.map (fun j => (j, [d, tm, ".submitit", j]))).map Prod.fst = jobs
    rw [List.map_map]
    exact map_fst_keyed _ jobs

/-- `processHms` over the time-level directories of one date directory of
a well-shaped tree collects exactly their job entries, in order. -/
theorem processHms_tree (t : TreeSpec) (d : String) (full : YmdSpec)
    (hmem : (d, full) ∈ t) (hndt : (t.map Prod.fst).Nodup)
    (hndh : (full.map Prod.fst).Nodup) :
    ∀ (sub : YmdSpec) (m : JobMap),
      (∀ x ∈ sub, x ∈ full) →
      (m.map Prod.fst ++
        ((sub.map (fun q => hmsJobEntries d q.1 q.2)).flatten).map Prod.fst).Nodup →
      processHms (mkJobTree t) m (sub.map (fun q => [d, q.1])) =
        .ok (m ++ (sub.map (fun q => hmsJobEntries d q.1 q.2)).flatten)
  | [], m, _, _ => by simp [processHms]
  | (tm, spec) :: subRest, m, hsub, hnd => by
    have hmemh : (tm, spec) ∈ full := hsub _ (List.mem_cons_self _ _)
    have hsub2 : ∀ x ∈ subRest, x ∈ full := fun x hx => hsub x (List.mem_cons_of_mem _ hx)
    rw [List.map_cons, processHms_cons]
    cases spec with
    | none =>
      have hres : resolve (mkJobTree t) ([d, tm] ++ [".submitit"]) = none :=
        resolve_tree_submitit_none t d full tm hmem hndt hmemh hndh
      rw [hres]
      simp only [Option.isSome_none, Bool.false_eq_true, if_false]
      have hnd2 : (m.map Prod.fst ++
          ((subRest.map (fun q => hmsJobEntries d q.1 q.2)).flatten).map Prod.fst).Nodup := by
        simpa [hmsJobEntries] using hnd
      rw [processHms_tree t d full hmem hndt hndh subRest m hsub2 hnd2]
      simp [hmsJobEntries]
    | some jobs =>
      have hres : resolve (mkJobTree t) ([d, tm] ++ [".submitit"])
          = some (mkSubmititNode jobs) :=
        resolve_tree_submitit_some t d full tm jobs hmem hndt hmemh hndh
      rw [hres]
      simp only [Option.isSome_some, if_true]
      have hget : get_subdirectories (mkJobTree t) ([d, tm] ++ [".submitit"])
          = .ok (jobs.map (fun j => ([d, tm] ++ [".submitit"]) ++ [j])) := by
        have := get_subdirectories_of_resolve (mkJobTree t) ([d, tm] ++ [".submitit"])
          (jobs.map (fun j => (j, .dir (some [])))) (by rw [hres]; rfl)
          (by intro e he; rcases List.mem_map.mp he with ⟨j, _, rfl⟩; rfl)
        rw [this, List.map_map]
        rfl
      rw [hget]
      dsimp only
      -- decompose the distinctness hypothesis
      have hnd' : ((m.map Prod.fst) ++ (jobs ++
          ((subRest.map (fun q => hmsJobEntries d q.1 q.2)).flatten).map Prod.fst)).Nodup := by
        simpa [hmsJobEntries, List.append_assoc, map_fst_keyed] using hnd
      have hparts := List.nodup_append.mp hnd'
      have hjobsR := List.nodup_append.mp hparts.2.1
      have hfresh : ∀ j ∈ jobs, j ∉ m.map Prod.fst := by
        intro j hj hk
        exact hparts.2.2 hk (List.mem_append_left _ hj)
      rw [insertJobs_fresh ([d, tm] ++ [".submitit"]) jobs m hfresh hjobsR.1]
      have hnd2 : ((m ++ jobs.map (fun j => (j, ([d, tm] ++ [".submitit"]) ++ [j]))).map
            Prod.fst ++
          ((subRest.map (fun q => hmsJobEntries d q.1 q.2)).flatten).map Prod.fst).Nodup := by
        simpa [List.append_assoc, map_fst_keyed] using hnd'
      rw [processHms_tree t d full hmem hndt hndh subRest _ hsub2 hnd2]
      simp [hmsJobEntries, List.append_assoc]

/-- Every time-level node of a well-shaped tree is a directory. -/
theorem mkHmsNode_isDir (s : HmsSpec) : (mkHmsNode s).isDir = true := by
  cases s <;> rfl

/-- `processYmd` over the date-level directories of a well-shaped tree
collects exactly their job entries, in order. -/
theorem processYmd_tree (t : TreeSpec)
    (hndt : (t.map Prod.fst).Nodup)
    (hndall : ∀ p ∈ t, ((p.2 : YmdSpec).map Prod.fst).Nodup) :
    ∀ (sub : TreeSpec) (m : JobMap),
      (∀ x ∈ sub, x ∈ t) →
      (m.map Prod.fst ++
        ((sub.map (fun p => ymdJobEntries p.1 p.2)).flatten).map Prod.fst).Nodup →
      processYmd (mkJobTree t) m (sub.map (fun p => [p.1])) =
        .ok (m ++ (sub.map (fun p => ymdJobEntries p.1 p.2)).flatten)
  | [], m, _, _ => by simp [processYmd]
  | (d, hmss) :: subRest, m, hsub, hnd => by
    have hmemd : (d, hmss) ∈ t := hsub _ (List.mem_cons_self _ _)
    have hsub2 : ∀ x ∈ subRest, x ∈ t := fun x hx => hsub x (List.mem_cons_of_mem _ hx)
    rw [List.map_cons, processYmd]
    have hget : get_subdirectories (mkJobTree t) [d]
        = .ok (hmss.map (fun q => [d, q.1])) := by
      have := get_subdirectories_of_resolve (mkJobTree t) [d]
        (hmss.map (fun p => (p.1, mkHmsNode p.2)))
        (by rw [resolve_tree_ymd t d hmss hmemd hndt]; rfl)
        (by intro e he; rcases List.mem_map.mp he with ⟨q, _, rfl⟩
            exact mkHmsNode_isDir q.2)
      rw [this, List.map_map]
      rfl
    rw [hget]
    dsimp only
    have hnd1 : (m.map Prod.fst ++
        ((hmss.map (fun q => hmsJobEntries d q.1 q.2)).flatten).map Prod.fst ++
        ((subRest.map (fun p => ymdJobEntries p.1 p.2)).flatten).map Prod.fst).Nodup := by
      simpa [ymdJobEntries, List.append_assoc] using hnd
    have hndinner : (m.map Prod.fst ++
        ((hmss.map (fun q => hmsJobEntries d q.1 q.2)).flatten).map Prod.fst).Nodup := by
      have hsl : (m.map Prod.fst ++
          ((hmss.map (fun q => hmsJobEntries d q.1 q.2)).flatten).map Prod.fst).Sublist
          (m.map Prod.fst ++
            ((hmss.map (fun q => hmsJobEntries d q.1 q.2)).flatten).map Prod.fst ++
            ((subRest.map (fun p => ymdJobEntries p.1 p.2)).flatten).map Prod.fst) :=
        List.sublist_append_left _ _
      exact hsl.nodup hnd1
    rw [processHms_tree t d hmss hmemd hndt (hndall _ hmemd) hmss m
      (fun x hx => hx) hndinner]
    dsimp only
    have hnd2 : ((m ++ (hmss.map (fun q => hmsJobEntries d q.1 q.2)).flatten).map
          Prod.fst ++
        ((subRest.map (fun p => ymdJobEntries p.1 p.2)).flatten).map Prod.fst).Nodup := by
      simpa [List.append_assoc] using hnd1
    rw [processYmd_tree t hndt hndall subRest _ hsub2 hnd2]
    simp [ymdJobEntries, List.append_assoc]

/-- Entry count of one time-level directory. -/
theorem hmsJobEntries_length (d tm : String) (spec : HmsSpec) :
    (hmsJobEntries d tm spec).length = (spec.getD []).length := by
  cases spec with
  | none => rfl
  | some jobs => simp [hmsJobEntries]

/-- Entry count of one date-level directory. -/
theorem ymdJobEntries_length (d : String) (hmss : YmdSpec) :
    (ymdJobEntries d hmss).length
      = (hmss.map (fun q => ((q.2 : HmsSpec).getD []).length)).sum := by
  unfold ymdJobEntries
  rw [List.length_flatten, List.map_map]
  have hfun : (List.length ∘ fun q : String × HmsSpec => hmsJobEntries d q.1 q.2)
      = fun q : String × HmsSpec => ((q.2 : HmsSpec).getD []).length := by
    funext q
    exact hmsJobEntries_length d q.1 q.2
  rw [hfun]

/-- The walk collects one entry per leaf job directory. -/
theorem treeJobEntries_length (t : TreeSpec) :
    (treeJobEntries t).length = leafCount t := by
  unfold treeJobEntries leafCount
  rw [List.length_flatten, List.map_map]
  have hfun : (List.length ∘ fun p : String × YmdSpec => ymdJobEntries p.1 p.2)
      = fun p : String × YmdSpec =>
          (p.2.map (fun q => ((q.2 : HmsSpec).getD []).length)).sum := by
    funext p
    exact ymdJobEntries_length p.1 p.2
  rw [hfun]

/-- Each leaf job directory contributes its entry to the walk. -/
theorem mem_treeJobEntries (t : TreeSpec) (d tm : String) (hmss : YmdSpec)
    (jobs : List String) (j : String)
    (h1 : (d, hmss) ∈ t) (h2 : (tm, some jobs) ∈ hmss) (h3 : j ∈ jobs) :
    (j, [d, tm, ".submitit", j]) ∈ treeJobEntries t := by
  unfold treeJobEntries
  rw [List.mem_flatten]
  refine ⟨ymdJobEntries d hmss, List.mem_map.mpr ⟨(d, hmss), h1, rfl⟩, ?_⟩
  unfold ymdJobEntries
  rw [List.mem_flatten]
  refine ⟨hmsJobEntries d tm (some jobs),
    List.mem_map.mpr ⟨(tm, some jobs), h2, rfl⟩, ?_⟩
  exact List.mem_map.mpr ⟨j, h3, rfl⟩

/-- C1: on every well-shaped root tree whose job-id basenames are unique
(and whose date and time names are unique per directory, as on a real
filesystem), `build_job_map` succeeds and returns one entry per leaf job
directory — exactly `leafCount` entries, regardless of how many date/time
levels are empty or lack the `.submitit` subdirectory — and each job-id
basename is mapped to its full leaf path. -/
theorem C1_index_complete (t : TreeSpec)
    (hndt : (t.map Prod.fst).Nodup)
    (hndall : ∀ p ∈ t, ((p.2 : YmdSpec).map Prod.fst).Nodup)
    (hndjobs : (treeJobNames t).Nodup) :
    build_job_map (mkJobTree t) [] = .ok (treeJobEntries t)
    ∧ (treeJobEntries t).length = leafCount t
    ∧ (∀ (d tm : String) (hmss : YmdSpec) (jobs : List String) (j : String),
        (d, hmss) ∈ t → (tm, some jobs) ∈ hmss → j ∈ jobs →
        (treeJobEntries t).lookupKey j = some [d, tm, ".submitit", j]) := by
  refine ⟨?_, treeJobEntries_length t, ?_⟩
  · rw [build_job_map]
    have hget : get_subdirectories (mkJobTree t) [] = .ok (t.map (fun p => [p.1])) := by
      have hres0 : resolve (mkJobTree t) []
          = some (.dir (some (t.map (fun p => (p.1, mkYmdNode p.2))))) := rfl
      have := get_subdirectories_of_resolve (mkJobTree t) []
        (t.map (fun p => (p.1, mkYmdNode p.2))) hres0
        (by intro e he; rcases List.mem_map.mp he with ⟨q, _, rfl⟩; rfl)
      rw [this, List.map_map]
      rfl
    rw [hget]
    dsimp only
    have hnd0 : (([] : JobMap).map Prod.fst ++
        ((t.map (fun p => ymdJobEntries p.1 p.2)).flatten).map Prod.fst).Nodup := by
      simpa [treeJobNames, treeJobEntries] using hndjobs
    rw [processYmd_tree t hndt hndall t [] (fun x hx => hx) hnd0]
    rfl
  · intro d tm hmss jobs j h1 h2 h3
    exact lookupKey_keyed (treeJobEntries t) j [d, tm, ".submitit", j]
      (mem_treeJobEntries t d tm hmss jobs j h1 h2 h3) hndjobs

/-- Witness for C1 on a concrete tree with empty levels, a time level
without `.submitit`, and an empty `.submitit`: three leaves, three
entries, and job `7` is mapped to its leaf path. -/
theorem C1_witness :
    build_job_map (mkJobTree exSpec) [] = .ok (treeJobEntries exSpec)
    ∧ (treeJobEntries exSpec).length = leafCount exSpec
    ∧ (treeJobEntries exSpec).lookupKey "7"
        = some ["2024-01-03", "09-00-00", ".submitit", "7"] :=
  ⟨(C1_index_complete exSpec (by decide) (by decide) (by decide)).1,
   (C1_index_complete exSpec (by decide) (by decide) (by decide)).2.1,
   (C1_index_complete exSpec (by decide) (by decide) (by decide)).2.2
     "2024-01-03" "09-00-00" [("09-00-00", some ["7"])] ["7"] "7"
     (by decide) (by decide) (by decide)⟩

end Viewlogs
